import Mathlib

/-!
Verification of the askpayxn bot core: the text-to-thread parser and
normalizer of `thread_creator.py`, the mention-polling daemon of
`twitter_bot.py`, and the thread publisher of `direct_query.py`.

Strings are modelled as `List Char`; Python string primitives
(`strip`, `split`, `replace`, `startswith`, `join`) are translated
one call site at a time.
-/

set_option maxRecDepth 20000

namespace AskPayxn

/-- The characters Python treats as whitespace in `str.strip()` / `str.split()`
(space, tab, newline, carriage return cover every character occurring here). -/
def isSpc (c : Char) : Bool := c.isWhitespace

/-- Python `str.strip()`: drop whitespace from both ends. -/
def pyStrip (l : List Char) : List Char :=
  ((l.dropWhile isSpc).reverse.dropWhile isSpc).reverse

/-- Python `s.split(sep)` for a one-character separator `sep`
(used as `raw_text.split("\n")` at thread_creator.py line 91 and
`tweet.split("\n")` at line 119). `"".split("\n") == [""]`. -/
def splitOnChar (sep : Char) : List Char → List (List Char)
  | [] => [[]]
  | c :: rest =>
    if c = sep then [] :: splitOnChar sep rest
    else
      match splitOnChar sep rest with
      | [] => [[c]]
      | l :: ls => (c :: l) :: ls

/-- Accumulator loop of Python `str.split()` (no argument): tokens are the
maximal runs of non-whitespace characters. `acc` is the current token,
reversed. -/
def pySplitAux : List Char → List Char → List (List Char)
  | [], acc => if acc = [] then [] else [acc.reverse]
  | c :: rest, acc =>
    if isSpc c then
      (if acc = [] then pySplitAux rest [] else acc.reverse :: pySplitAux rest [])
    else pySplitAux rest (c :: acc)

/-- Python `line.split()` (thread_creator.py line 120). -/
def pySplit (l : List Char) : List (List Char) := pySplitAux l []

/-- Python `sep.join(items)` for a one-character separator
(`"\n".join(...)` and `" ".join(...)` in thread_creator.py). -/
def joinSep (sep : Char) : List (List Char) → List Char
  | [] => []
  | [l] => l
  | l1 :: l2 :: ls => l1 ++ sep :: joinSep sep (l2 :: ls)

/-- Python `line.split(":", 1)[1]`: everything after the first occurrence of
`sep` (the call sites guard with `":" in line`, so `sep` is present). -/
def afterFirst (sep : Char) : List Char → List Char
  | [] => []
  | c :: rest => if c = sep then rest else afterFirst sep rest

/-- Python `s.replace(c, "")` for a one-character pattern: every occurrence of
`c` is deleted (thread_creator.py lines 113 and 115, `tweet.replace("`", "")`
and `.replace("*", "")`). -/
def removeChar (c : Char) : List Char → List Char
  | [] => []
  | x :: rest => if x = c then removeChar c rest else x :: removeChar c rest

/-- Python `tweet.replace("**", "")` (thread_creator.py line 115): leftmost
non-overlapping occurrences of two consecutive asterisks are deleted, scanning
left to right without rescanning. -/
def removeDoubleStar : List Char → List Char
  | '*' :: '*' :: rest => removeDoubleStar rest
  | c :: rest => c :: removeDoubleStar rest
  | [] => []

/-- Python `tweet.replace("•", " • ")` (thread_creator.py line 117): every
bullet character is replaced by space-bullet-space. -/
def expandBullet : List Char → List Char
  | [] => []
  | c :: rest => (if c = '•' then [' ', '•', ' '] else [c]) ++ expandBullet rest

/-- Python `tweet.replace("  •  ", " • ")` (thread_creator.py line 117):
leftmost non-overlapping occurrences of the five-character pattern
space-space-bullet-space-space become space-bullet-space; the scan continues
after the replacement without rescanning it. -/
def squeezeBullet : List Char → List Char
  | ' ' :: ' ' :: '•' :: ' ' :: ' ' :: rest => ' ' :: '•' :: ' ' :: squeezeBullet rest
  | c :: rest => c :: squeezeBullet rest
  | [] => []

/-- Python `" ".join(line.split())` (thread_creator.py line 120): collapse any
run of whitespace inside a line to a single space and trim the ends. -/
def cleanLine (l : List Char) : List Char := joinSep ' ' (pySplit l)

/-- Lines 119-121 of thread_creator.py: split into lines, collapse whitespace
within each line, rejoin with newline. -/
def collapseLines (s : List Char) : List Char :=
  joinSep '\n' ((splitOnChar '\n' s).map cleanLine)

/-- The per-tweet cleanup of thread_creator.py lines 111-122: remove backticks,
remove double then single asterisks, normalize bullet spacing, then collapse
per-line whitespace. `Char.ofNat 96` is the backtick character. -/
def clean (tweet : List Char) : List Char :=
  collapseLines (squeezeBullet (expandBullet
    (removeChar '*' (removeDoubleStar (removeChar (Char.ofNat 96) tweet)))))

/-- Marker test of thread_creator.py line 93:
`line.startswith("Tweet ") and ":" in line`. -/
def markerLine (line : List Char) : Bool :=
  "Tweet ".toList.isPrefixOf line && line.contains ':'

/-- The flush idiom of thread_creator.py lines 95-97 and 106-107: if the
accumulator is non-empty, append its lines joined with newline to the output. -/
def flushTweets (tweets : List (List Char)) (current : List (List Char)) :
    List (List Char) :=
  if current = [] then tweets else tweets ++ [joinSep '\n' current]

/-- The parsing loop of thread_creator.py lines 89-107. `current` is the open
accumulator of lines, `tweets` the completed segments, both in order. -/
def scanTweets : List (List Char) → List (List Char) → List (List Char) →
    List (List Char)
  | [], current, tweets => flushTweets tweets current
  | rawLine :: rest, current, tweets =>
    let line := pyStrip rawLine
    if markerLine line then
      scanTweets rest [pyStrip (afterFirst ':' line)] (flushTweets tweets current)
    else if line ≠ [] ∧ current ≠ [] then
      scanTweets rest (current ++ [line]) tweets
    else
      scanTweets rest current tweets

/-- The `TwitterThread` model of thread_creator.py lines 9-12. -/
structure TwitterThread where
  tweet1 : List Char
  tweet2 : List Char
  tweet3 : List Char
deriving DecidableEq

/-- Segments scanned from the raw text and cleaned
(thread_creator.py lines 89-122). -/
def cleanedTweets (rawText : List Char) : List (List Char) :=
  (scanTweets (splitOnChar '\n' rawText) [] []).map clean

/-- The padding loop of thread_creator.py lines 125-126: append empty strings
until there are at least three segments. -/
def padTweets (l : List (List Char)) : List (List Char) :=
  l ++ List.replicate (3 - l.length) []

/-- The parse step of `generate_twitter_thread` (thread_creator.py lines
88-131): the model call `agent.run(prompt)` is external, so this takes the raw
response text. Indexing `padded[0..2]` is total because padding guarantees at
least three entries. -/
def generate_twitter_thread (rawText : List Char) : TwitterThread :=
  let padded := padTweets (cleanedTweets rawText)
  ⟨padded.getD 0 [], padded.getD 1 [], padded.getD 2 []⟩

/-- A mention as read by the bot (id and text; twitter_bot.py). Ids are opaque
tokens, modelled as naturals. -/
structure Mention where
  id : Nat
  text : List Char
deriving DecidableEq

/-- One poll cycle's view of the external collaborators of twitter_bot.py:
the result of `get_recent_mentions()`, the blockchain agent's `run`, the
thread-generation model call inside `generate_twitter_thread`, and `post_reply`
(text and tweet id to the posted tweet's id). Fallible calls are `Except`. -/
structure CycleEnv where
  fetch : Except String (List Mention)
  agent : List Char → Except String (List Char)
  threadAgent : List Char → Except String (List Char)
  postReply : List Char → Nat → Except String Nat

/-- The body of `process_mention` (twitter_bot.py lines 60-83): run the agent
on the mention text, generate the thread from the model response, then post the
three tweets as a chained reply sequence rooted at the mention. Any failure
short-circuits. -/
def processMentionBody (env : CycleEnv) (m : Mention) : Except String Unit := do
  let txData ← env.agent m.text
  let rawText ← env.threadAgent txData
  let thread := generate_twitter_thread rawText
  let t1 ← env.postReply thread.tweet1 m.id
  let t2 ← env.postReply thread.tweet2 t1
  let _t3 ← env.postReply thread.tweet3 t2
  pure ()

/-- `process_mention` including its own `except` clause (twitter_bot.py lines
85-86): every exception from the body is caught and logged; the function always
returns. The returned value is what was logged (`none` on success). -/
def processMentionErr (env : CycleEnv) (m : Mention) : Option String :=
  match processMentionBody env m with
  | .ok _ => none
  | .error e => some e

/-- The new-mention test of twitter_bot.py line 108:
`if mentions and last_processed_id != mentions[0].id`. Only the head of the
fetched list is ever considered. -/
def detectNew (last : Option Nat) (mentions : List Mention) : Option Mention :=
  match mentions with
  | [] => none
  | m :: _ => if last ≠ some m.id then some m else none

/-- Observable outcome of one iteration of the `while True` loop:
the watermark after the cycle, the sleep chosen at its end (seconds), the
mention dispatched to `process_mention` if any, and the error that
`process_mention` swallowed and logged, if any. -/
structure CycleResult where
  lastAfter : Option Nat
  sleepSecs : Nat
  dispatched : Option Mention
  procErr : Option String
deriving DecidableEq

/-- One iteration of the daemon loop (twitter_bot.py lines 104-124). The
`try` block covers the fetch, the dispatch test, `process_mention`, the
watermark update, and the 15-minute sleep; the only raiser inside it is the
fetch, since `process_mention` swallows its own errors. The `except` clause
logs and sleeps 60 seconds. -/
def loopCycle (env : CycleEnv) (last : Option Nat) : CycleResult :=
  match env.fetch with
  | .error _ => ⟨last, 60, none, none⟩
  | .ok mentions =>
    match detectNew last mentions with
    | some m => ⟨some m.id, 15 * 60, some m, processMentionErr env m⟩
    | none => ⟨last, 15 * 60, none, none⟩

/-- The daemon loop run over a finite prefix of cycles, threading the
watermark; the Python loop is unbounded, so every finite prefix of its
behavior is an instance of this. -/
def runLoop : Option Nat → List CycleEnv → List CycleResult
  | _, [] => []
  | last, env :: rest =>
    let r := loopCycle env last
    r :: runLoop r.lastAfter rest

/-- Lines 96-99 of twitter_bot.py: the startup watermark is the id of the
newest fetched mention, or empty when nothing was fetched. -/
def initialWatermark : List Mention → Option Nat
  | [] => none
  | m :: _ => some m.id

/-- `main` of twitter_bot.py (lines 89-124): the initial
`get_recent_mentions()` call at line 93 runs before the `while True` loop and
outside any `try`, so its failure propagates and the loop is never entered;
otherwise the loop runs with the startup watermark. -/
def runBot (initFetch : Except String (List Mention)) (cycles : List CycleEnv) :
    Except String (List CycleResult) :=
  match initFetch with
  | .error e => .error e
  | .ok initial => .ok (runLoop (initialWatermark initial) cycles)

/-- `post_thread` of direct_query.py lines 19-47: post tweet1 (replying to
`reply_to` when given), tweet2 replying to tweet1's id, tweet3 replying to
tweet2's id; return tweet1's id. `create_tweet` is the external posting
primitive; its failures propagate unchanged. -/
def post_thread {E : Type} (create_tweet : List Char → Option Nat → Except E Nat)
    (thread : TwitterThread) (reply_to : Option Nat) : Except E Nat := do
  let r1 ← create_tweet thread.tweet1 reply_to
  let r2 ← create_tweet thread.tweet2 (some r1)
  let _r3 ← create_tweet thread.tweet3 (some r2)
  pure r1

/-- Modelled from the spec: the marker pattern as the specification words it,
"starts with a segment marker word followed by an ordinal and a colon" — the
word `Tweet` and a space, then at least one digit, then immediately a colon.
Used only to compare the specified marker test with the implemented one. -/
def specMarkerLine (line : List Char) : Bool :=
  "Tweet ".toList.isPrefixOf line &&
    (let rest := line.drop 6
     let digits := rest.takeWhile Char.isDigit
     !digits.isEmpty && ((rest.drop digits.length).head? == some ':'))

/-- Ten-marker input used by claim C2 ("string with ten marker lines"). -/
def tenMarkers : List Char :=
  ("Tweet 1: a\nTweet 2: b\nTweet 3: c\nTweet 4: d\nTweet 5: e\n" ++
   "Tweet 6: f\nTweet 7: g\nTweet 8: h\nTweet 9: i\nTweet 10: j").toList

/-- A concrete mention for the error-handling counterexample. -/
def m0 : Mention := ⟨5, "gm".toList⟩

/-- A posting primitive that always succeeds. -/
def okPost : List Char → Nat → Except String Nat := fun _ i => .ok (i + 1)

/-- A cycle in which the fetch succeeds with one new mention but the blockchain
agent call fails. -/
def envAgentDown : CycleEnv :=
  ⟨.ok [m0], fun _ => .error "agent down", fun t => .ok t, okPost⟩

/-- A cycle whose fetch fails. -/
def envFetchDown : CycleEnv :=
  ⟨.error "net down", fun t => .ok t, fun t => .ok t, okPost⟩

/-- A cycle env whose external calls all succeed, parameterized by the fetch
result. -/
def mkOkEnv (fetch : Except String (List Mention)) : CycleEnv :=
  ⟨fetch, fun t => .ok t, fun t => .ok t, okPost⟩

/-- Concrete mentions for the reprocessing scenario of claim C10. -/
def mA : Mention := ⟨1, "a".toList⟩

/-- Second concrete mention for the reprocessing scenario of claim C10. -/
def mB : Mention := ⟨2, "b".toList⟩

/-- Fetch sequence for claim C10: `mA` is fetched and processed, then `mB`
arrives at the head, then a later fetch again presents the older `mA` at the
head (the newer mention vanished upstream). -/
def reprocessCycles : List CycleEnv :=
  [mkOkEnv (.ok [mA]), mkOkEnv (.ok [mB, mA]), mkOkEnv (.ok [mA])]

/-- A posting primitive for witnesses: every call succeeds, returning the reply
target plus one (or zero for a standalone post). -/
def postOk : List Char → Option Nat → Except String Nat :=
  fun _ r => .ok (match r with | some i => i + 1 | none => 0)

/-- A well-formed token of `pySplit`: non-empty and free of whitespace. -/
def goodTok (t : List Char) : Prop := t ≠ [] ∧ ∀ c ∈ t, isSpc c = false

/-- A token in which a bullet can only occur standing alone. -/
def bulletTok (t : List Char) : Prop := '•' ∈ t → t = ['•']

/-- Prepend `a` to the first chunk of a chunk list (helper for reasoning about
`splitOnChar` over appends). -/
def consHead (a : List Char) : List (List Char) → List (List Char)
  | [] => [a]
  | l :: ls => (a ++ l) :: ls

/-- A concrete thread for the publish counterexample of claim C3. -/
def th0 : TwitterThread := ⟨"a".toList, "b".toList, "c".toList⟩

/-- A posting primitive that always fails, with a fixed error. -/
def postAlwaysFail : List Char → Option Nat → Except String Nat :=
  fun _ _ => .error "boom"

/-- A posting primitive that succeeds on the first call of the C3 scenario
(reply target 7) and fails on every other call, with the same fixed error. -/
def postFailSecond : List Char → Option Nat → Except String Nat :=
  fun _ r => if r = some 7 then .ok 10 else .error "boom"

/-! ## Lemmas about the whitespace tokenizer -/

theorem pySplitAux_nonspace (c : Char) (h : isSpc c = false) (rest acc : List Char) :
    pySplitAux (c :: rest) acc = pySplitAux rest (c :: acc) := by
  simp [pySplitAux, h]

theorem pySplitAux_space_nil (c : Char) (h : isSpc c = true) (rest : List Char) :
    pySplitAux (c :: rest) [] = pySplitAux rest [] := by
  simp [pySplitAux, h]

theorem pySplitAux_space_cons (c : Char) (h : isSpc c = true) (rest acc : List Char)
    (ha : acc ≠ []) :
    pySplitAux (c :: rest) acc = acc.reverse :: pySplitAux rest [] := by
  simp [pySplitAux, h, ha]

theorem pySplitAux_run (t : List Char) (ht : ∀ c ∈ t, isSpc c = false) :
    ∀ u acc, pySplitAux (t ++ u) acc = pySplitAux u (t.reverse ++ acc) := by
  induction t with
  | nil => intro u acc; simp
  | cons c t ih =>
      intro u acc
      rw [List.cons_append, pySplitAux_nonspace c (ht c (by simp)),
        ih (fun x hx => ht x (by simp [hx]))]
      simp

theorem pySplitAux_tokens_good (l : List Char) :
    ∀ acc, (∀ c ∈ acc, isSpc c = false) → ∀ t ∈ pySplitAux l acc, goodTok t := by
  induction l with
  | nil =>
      intro acc hacc t ht
      by_cases h : acc = []
      · simp [pySplitAux, h] at ht
      · simp [pySplitAux, h] at ht
        subst ht
        exact ⟨by simpa using h, fun c hc => hacc c (by simpa using hc)⟩
  | cons c rest ih =>
      intro acc hacc t ht
      by_cases hs : isSpc c = true
      · by_cases h : acc = []
        · rw [h, pySplitAux_space_nil c hs] at ht
          exact ih [] (by simp) t ht
        · rw [pySplitAux_space_cons c hs rest acc h] at ht
          rcases List.mem_cons.mp ht with h1 | h1
          · subst h1
            exact ⟨by simpa using h, fun x hx => hacc x (by simpa using hx)⟩
          · exact ih [] (by simp) t h1
      · rw [pySplitAux_nonspace c (by simpa using hs)] at ht
        refine ih (c :: acc) ?_ t ht
        intro x hx
        rcases List.mem_cons.mp hx with h1 | h1
        · subst h1; simpa using hs
        · exact hacc x h1

theorem mem_of_mem_pySplitAux (l : List Char) :
    ∀ acc t, t ∈ pySplitAux l acc → ∀ x ∈ t, x ∈ l ∨ x ∈ acc := by
  induction l with
  | nil =>
      intro acc t ht x hx
      by_cases h : acc = [] <;> simp [pySplitAux, h] at ht
      subst ht
      exact Or.inr (by simpa using hx)
  | cons c rest ih =>
      intro acc t ht x hx
      by_cases hs : isSpc c = true
      · by_cases h : acc = []
        · rw [h, pySplitAux_space_nil c hs] at ht
          rcases ih [] t ht x hx with h1 | h1
          · exact Or.inl (by simp [h1])
          · simp at h1
        · rw [pySplitAux_space_cons c hs rest acc h] at ht
          rcases List.mem_cons.mp ht with h1 | h1
          · subst h1
            exact Or.inr (by simpa using hx)
          · rcases ih [] t h1 x hx with h2 | h2
            · exact Or.inl (by simp [h2])
            · simp at h2
      · rw [pySplitAux_nonspace c (by simpa using hs)] at ht
        rcases ih (c :: acc) t ht x hx with h1 | h1
        · exact Or.inl (by simp [h1])
        · rcases List.mem_cons.mp h1 with h2 | h2
          · exact Or.inl (by simp [h2])
          · exact Or.inr h2

/-! ## Lemmas about `joinSep` -/

theorem joinSep_cons_cons (sep : Char) (l1 l2 : List Char) (ls : List (List Char)) :
    joinSep sep (l1 :: l2 :: ls) = l1 ++ sep :: joinSep sep (l2 :: ls) := rfl

theorem mem_joinSep (sep : Char) :
    ∀ ls x, x ∈ joinSep sep ls → x = sep ∨ ∃ l ∈ ls, x ∈ l := by
  intro ls
  induction ls with
  | nil => intro x hx; simp [joinSep] at hx
  | cons l ls ih =>
      intro x hx
      match ls with
      | [] =>
          exact Or.inr ⟨l, by simp, by simpa [joinSep] using hx⟩
      | l2 :: ls2 =>
          rw [joinSep_cons_cons] at hx
          rcases List.mem_append.mp hx with h1 | h1
          · exact Or.inr ⟨l, by simp, h1⟩
          · rcases List.mem_cons.mp h1 with h2 | h2
            · exact Or.inl h2
            · rcases ih x h2 with h3 | h3
              · exact Or.inl h3
              · rcases h3 with ⟨l3, hl3, hx3⟩
                exact Or.inr ⟨l3, by simp [hl3], hx3⟩

theorem pySplit_joinSep (toks : List (List Char)) (h : ∀ t ∈ toks, goodTok t) :
    pySplit (joinSep ' ' toks) = toks := by
  induction toks with
  | nil => rfl
  | cons t rest ih =>
      have hgt := h t (by simp)
      match rest with
      | [] =>
          show pySplitAux (joinSep ' ' [t]) [] = [t]
          have : joinSep ' ' [t] = t ++ [] := by simp [joinSep]
          rw [this, pySplitAux_run t hgt.2]
          simp [pySplitAux, hgt.1]
      | l2 :: ls2 =>
          show pySplitAux (joinSep ' ' (t :: l2 :: ls2)) [] = t :: l2 :: ls2
          rw [joinSep_cons_cons, pySplitAux_run t hgt.2,
            pySplitAux_space_cons ' ' (by decide) _ _ (by simp [hgt.1])]
          simp only [List.append_nil, List.reverse_reverse]
          exact congrArg _ (ih (fun x hx => h x (by simp [hx])))

/-! ## Lemmas about bullet expansion -/

theorem expandBullet_append (a b : List Char) :
    expandBullet (a ++ b) = expandBullet a ++ expandBullet b := by
  induction a with
  | nil => rfl
  | cons c a ih => simp [expandBullet, ih]

theorem expandBullet_eq_self (s : List Char) (h : '•' ∉ s) : expandBullet s = s := by
  induction s with
  | nil => rfl
  | cons c rest ih =>
      have hc : c ≠ '•' := fun hc => h (by simp [hc])
      simp [expandBullet, hc, ih (fun hm => h (by simp [hm]))]

theorem mem_expandBullet (s : List Char) (x : Char) (h : x ∈ expandBullet s) :
    x ∈ s ∨ x = ' ' ∨ x = '•' := by
  induction s with
  | nil => simp [expandBullet] at h
  | cons c rest ih =>
      simp only [expandBullet] at h
      rcases List.mem_append.mp h with h1 | h1
      · by_cases hc : c = '•'
        · simp [hc] at h1
          rcases h1 with h2 | h2 | h2 <;> simp [h2, hc]
        · simp [hc] at h1
          simp [h1]
      · rcases ih h1 with h2 | h2
        · exact Or.inl (by simp [h2])
        · exact Or.inr h2

theorem pySplitAux_expand_bulletTok (l : List Char) :
    ∀ acc, (∀ c ∈ acc, isSpc c = false ∧ c ≠ '•') →
    ∀ t ∈ pySplitAux (expandBullet l) acc, bulletTok t := by
  induction l with
  | nil =>
      intro acc hacc t ht
      by_cases h : acc = [] <;> simp [expandBullet, pySplitAux, h] at ht
      subst ht
      intro hb
      exact absurd rfl (hacc '•' (by simpa using hb)).2
  | cons c rest ih =>
      intro acc hacc t ht
      by_cases hc : c = '•'
      · subst hc
        rw [show expandBullet ('•' :: rest) = ' ' :: '•' :: ' ' :: expandBullet rest
          from rfl] at ht
        by_cases h : acc = []
        · rw [h, pySplitAux_space_nil ' ' (by decide),
            pySplitAux_nonspace '•' (by decide),
            pySplitAux_space_cons ' ' (by decide) _ _ (by simp)] at ht
          rcases List.mem_cons.mp ht with h1 | h1
          · subst h1; intro _; rfl
          · exact ih [] (by simp) t h1
        · rw [pySplitAux_space_cons ' ' (by decide) _ _ h] at ht
          rcases List.mem_cons.mp ht with h1 | h1
          · subst h1
            intro hb
            exact absurd rfl (hacc '•' (by simpa using hb)).2
          · rw [pySplitAux_nonspace '•' (by decide),
              pySplitAux_space_cons ' ' (by decide) _ _ (by simp)] at h1
            rcases List.mem_cons.mp h1 with h2 | h2
            · subst h2; intro _; rfl
            · exact ih [] (by simp) t h2
      · rw [show expandBullet (c :: rest) = c :: expandBullet rest by
          simp [expandBullet, hc]] at ht
        by_cases hs : isSpc c = true
        · by_cases h : acc = []
          · rw [h, pySplitAux_space_nil c hs] at ht
            exact ih [] (by simp) t ht
          · rw [pySplitAux_space_cons c hs _ _ h] at ht
            rcases List.mem_cons.mp ht with h1 | h1
            · subst h1
              intro hb
              exact absurd rfl (hacc '•' (by simpa using hb)).2
            · exact ih [] (by simp) t h1
        · rw [pySplitAux_nonspace c (by simpa using hs)] at ht
          refine ih (c :: acc) ?_ t ht
          intro x hx
          rcases List.mem_cons.mp hx with h1 | h1
          · subst h1; exact ⟨by simpa using hs, hc⟩
          · exact hacc x h1

theorem pySplit_expand_joinSep (toks : List (List Char))
    (h : ∀ t ∈ toks, goodTok t ∧ bulletTok t) :
    pySplit (expandBullet (joinSep ' ' toks)) = toks := by
  induction toks with
  | nil => rfl
  | cons t rest ih =>
      have hgt := (h t (by simp)).1
      have hbt := (h t (by simp)).2
      have hsplit : ('•' ∉ t ∧ expandBullet t = t) ∨
          (t = ['•'] ∧ expandBullet t = [' ', '•', ' ']) := by
        by_cases hb : '•' ∈ t
        · exact Or.inr ⟨hbt hb, by rw [hbt hb]; rfl⟩
        · exact Or.inl ⟨hb, expandBullet_eq_self t hb⟩
      match rest with
      | [] =>
          show pySplitAux (expandBullet (joinSep ' ' [t])) [] = [t]
          have hj : joinSep ' ' [t] = t := by simp [joinSep]
          rw [hj]
          rcases hsplit with ⟨hb, he⟩ | ⟨hb, he⟩
          · rw [he, show t = t ++ [] by simp, pySplitAux_run t hgt.2]
            simp [pySplitAux, hgt.1]
          · rw [he, hb]
            decide
      | l2 :: ls2 =>
          show pySplitAux (expandBullet (joinSep ' ' (t :: l2 :: ls2))) [] =
            t :: l2 :: ls2
          rw [joinSep_cons_cons, expandBullet_append,
            show expandBullet (' ' :: joinSep ' ' (l2 :: ls2)) =
              ' ' :: expandBullet (joinSep ' ' (l2 :: ls2)) from rfl]
          have ihr : pySplitAux (expandBullet (joinSep ' ' (l2 :: ls2))) [] =
              l2 :: ls2 := ih (fun x hx => h x (by simp [hx]))
          rcases hsplit with ⟨hb, he⟩ | ⟨hb, he⟩
          · rw [he, pySplitAux_run t hgt.2,
              pySplitAux_space_cons ' ' (by decide) _ _ (by simp [hgt.1])]
            simp only [List.append_nil, List.reverse_reverse]
            exact congrArg _ ihr
          · rw [he, hb,
              show ([' ', '•', ' '] : List Char) ++
                ' ' :: expandBullet (joinSep ' ' (l2 :: ls2)) =
                ' ' :: '•' :: ' ' :: ' ' :: expandBullet (joinSep ' ' (l2 :: ls2))
                from rfl,
              pySplitAux_space_nil ' ' (by decide),
              pySplitAux_nonspace '•' (by decide),
              pySplitAux_space_cons ' ' (by decide) _ _ (by simp),
              pySplitAux_space_nil ' ' (by decide)]
            exact congrArg _ ihr

/-! ## Lemmas about `splitOnChar` -/

theorem splitOnChar_ne_nil (sep : Char) (s : List Char) : splitOnChar sep s ≠ [] := by
  cases s with
  | nil => simp [splitOnChar]
  | cons c rest =>
      by_cases h : c = sep
      · simp [splitOnChar, h]
      · simp only [splitOnChar, if_neg h]
        cases splitOnChar sep rest <;> simp

theorem splitOnChar_cons_ne (sep c : Char) (h : c ≠ sep) (rest : List Char) :
    splitOnChar sep (c :: rest) = consHead [c] (splitOnChar sep rest) := by
  simp only [splitOnChar, if_neg h]
  cases splitOnChar sep rest <;> simp [consHead]

theorem splitOnChar_append (sep : Char) (a : List Char) (ha : ∀ x ∈ a, x ≠ sep) :
    ∀ b, splitOnChar sep (a ++ b) = consHead a (splitOnChar sep b) := by
  induction a with
  | nil =>
      intro b
      rcases h : splitOnChar sep b with _ | ⟨l, ls⟩
      · exact absurd h (splitOnChar_ne_nil sep b)
      · simp [consHead, h]
  | cons c a ih =>
      intro b
      rw [List.cons_append, splitOnChar_cons_ne sep c (ha c (by simp)),
        ih (fun x hx => ha x (by simp [hx]))]
      rcases splitOnChar sep b with _ | ⟨l, ls⟩ <;> simp [consHead]

theorem splitOnChar_eq_single (sep : Char) (a : List Char) (ha : sep ∉ a) :
    splitOnChar sep a = [a] := by
  induction a with
  | nil => rfl
  | cons c a ih =>
      rw [splitOnChar_cons_ne sep c (fun h => ha (by simp [h])),
        ih (fun h => ha (by simp [h]))]
      simp [consHead]

theorem joinSep_splitOnChar (sep : Char) (s : List Char) :
    joinSep sep (splitOnChar sep s) = s := by
  induction s with
  | nil => rfl
  | cons c rest ih =>
      by_cases h : c = sep
      · rw [show splitOnChar sep (c :: rest) = [] :: splitOnChar sep rest by
          simp [splitOnChar, h]]
        rcases hs : splitOnChar sep rest with _ | ⟨l, ls⟩
        · exact absurd hs (splitOnChar_ne_nil sep rest)
        · rw [joinSep_cons_cons]
          rw [hs] at ih
          simp [ih, h]
      · rw [splitOnChar_cons_ne sep c h]
        rcases hs : splitOnChar sep rest with _ | ⟨l, ls⟩
        · exact absurd hs (splitOnChar_ne_nil sep rest)
        · rw [hs] at ih
          simp only [consHead]
          cases ls with
          | nil => simpa [joinSep] using congrArg (c :: ·) ih
          | cons l2 ls2 =>
              rw [joinSep_cons_cons] at ih ⊢
              simpa using congrArg (c :: ·) ih

theorem not_mem_splitOnChar (sep : Char) (s : List Char) :
    ∀ l ∈ splitOnChar sep s, sep ∉ l := by
  induction s with
  | nil => simp [splitOnChar]
  | cons c rest ih =>
      intro l hl
      by_cases h : c = sep
      · subst h
        rcases List.mem_cons.mp (by simpa [splitOnChar] using hl) with h1 | h1
        · simp [h1]
        · exact ih l h1
      · rw [splitOnChar_cons_ne sep c h] at hl
        rcases hs : splitOnChar sep rest with _ | ⟨l1, ls⟩
        · exact absurd hs (splitOnChar_ne_nil sep rest)
        · rw [hs] at hl
          simp only [consHead] at hl
          rcases List.mem_cons.mp hl with h1 | h1
          · subst h1
            intro hm
            rcases List.mem_cons.mp hm with h2 | h2
            · exact h h2.symm
            · exact ih l1 (by simp [hs]) h2
          · exact ih l (by simp [hs, h1])

theorem mem_of_mem_splitOnChar (sep : Char) (s : List Char) :
    ∀ l ∈ splitOnChar sep s, ∀ x ∈ l, x ∈ s := by
  induction s with
  | nil => simp [splitOnChar]
  | cons c rest ih =>
      intro l hl x hx
      by_cases h : c = sep
      · subst h
        rcases List.mem_cons.mp (by simpa [splitOnChar] using hl) with h1 | h1
        · subst h1; simp at hx
        · simp [ih l h1 x hx]
      · rw [splitOnChar_cons_ne sep c h] at hl
        rcases hs : splitOnChar sep rest with _ | ⟨l1, ls⟩
        · exact absurd hs (splitOnChar_ne_nil sep rest)
        · rw [hs] at hl
          simp only [consHead] at hl
          rcases List.mem_cons.mp hl with h1 | h1
          · subst h1
            rcases List.mem_cons.mp hx with h2 | h2
            · simp [h2]
            · simp [ih l1 (by simp [hs]) x h2]
          · simp [ih l (by simp [hs, h1]) x hx]

theorem splitOnChar_joinSep (sep : Char) :
    ∀ ls, ls ≠ [] → (∀ l ∈ ls, sep ∉ l) →
    splitOnChar sep (joinSep sep ls) = ls := by
  intro ls
  induction ls with
  | nil => intro h; exact absurd rfl h
  | cons l ls ih =>
      intro _ hmem
      cases ls with
      | nil =>
          show splitOnChar sep (joinSep sep [l]) = [l]
          rw [show joinSep sep [l] = l from rfl]
          exact splitOnChar_eq_single sep l (hmem l (by simp))
      | cons l2 ls2 =>
          rw [joinSep_cons_cons,
            splitOnChar_append sep l (fun x hx h => (hmem l (by simp)) (h ▸ hx)),
            show splitOnChar sep (sep :: joinSep sep (l2 :: ls2)) =
              [] :: splitOnChar sep (joinSep sep (l2 :: ls2)) by simp [splitOnChar],
            ih (by simp) (fun x hx => hmem x (by simp [hx]))]
          simp [consHead]

/-! ## Lemmas about bullet squeezing -/

theorem isSpc_space : isSpc ' ' = true := by decide

theorem isSpc_bullet : isSpc '•' = false := by decide

theorem pySplitAux_squeeze (s : List Char) :
    ∀ acc, pySplitAux (squeezeBullet s) acc = pySplitAux s acc := by
  induction s using squeezeBullet.induct with
  | case1 rest ih =>
      intro acc
      by_cases h : acc = [] <;>
        simp [squeezeBullet, pySplitAux, isSpc_space, isSpc_bullet, h, ih]
  | case2 c rest h ih =>
      intro acc
      rw [squeezeBullet.eq_2 c rest h]
      by_cases hs : isSpc c = true
      · by_cases ha : acc = [] <;> simp [pySplitAux, hs, ha, ih]
      · simp [pySplitAux, hs, ih]
  | case3 => intro acc; rfl

theorem mem_squeezeBullet (s : List Char) (x : Char) :
    x ∈ squeezeBullet s → x ∈ s := by
  induction s using squeezeBullet.induct with
  | case1 rest ih =>
      intro hx
      simp only [squeezeBullet] at hx
      rcases List.mem_cons.mp hx with h1 | h1
      · simp [h1]
      · rcases List.mem_cons.mp h1 with h2 | h2
        · simp [h2]
        · rcases List.mem_cons.mp h2 with h3 | h3
          · simp [h3]
          · simp [ih h3]
  | case2 c rest h ih =>
      intro hx
      rw [squeezeBullet.eq_2 c rest h] at hx
      rcases List.mem_cons.mp hx with h1 | h1
      · simp [h1]
      · simp [ih h1]
  | case3 => intro hx; simp [squeezeBullet] at hx

theorem squeezeBullet_newline (a : List Char) :
    ∀ b, squeezeBullet (a ++ '\n' :: b) = squeezeBullet a ++ '\n' :: squeezeBullet b := by
  induction a using squeezeBullet.induct with
  | case1 rest ih =>
      intro b
      rw [show (' ' :: ' ' :: '•' :: ' ' :: ' ' :: rest) ++ '\n' :: b =
        ' ' :: ' ' :: '•' :: ' ' :: ' ' :: (rest ++ '\n' :: b) from rfl]
      rw [show squeezeBullet (' ' :: ' ' :: '•' :: ' ' :: ' ' :: (rest ++ '\n' :: b)) =
        ' ' :: '•' :: ' ' :: squeezeBullet (rest ++ '\n' :: b) from rfl]
      rw [show squeezeBullet (' ' :: ' ' :: '•' :: ' ' :: ' ' :: rest) =
        ' ' :: '•' :: ' ' :: squeezeBullet rest from rfl]
      simp [ih b]
  | case2 c rest h ih =>
      intro b
      have hm : ∀ (r : List Char), c = ' ' →
          rest ++ '\n' :: b = ' ' :: '•' :: ' ' :: ' ' :: r → False := by
        intro r hc heq
        rcases rest with _ | ⟨x1, rest⟩
        · simp at heq
        · rcases rest with _ | ⟨x2, rest⟩
          · simp at heq
          · rcases rest with _ | ⟨x3, rest⟩
            · simp at heq
            · rcases rest with _ | ⟨x4, rest⟩
              · simp at heq
              · have heq2 : x1 = ' ' ∧ x2 = '•' ∧ x3 = ' ' ∧ x4 = ' ' ∧
                    rest ++ '\n' :: b = r := by simpa using heq
                exact h rest hc (by simp [heq2.1, heq2.2.1, heq2.2.2.1, heq2.2.2.2.1])
      rw [List.cons_append, squeezeBullet.eq_2 c _ hm, squeezeBullet.eq_2 c rest h,
        ih b, List.cons_append]
  | case3 =>
      intro b
      rw [List.nil_append,
        squeezeBullet.eq_2 '\n' b (by intro r hc _; exact absurd hc (by decide)),
        show squeezeBullet [] = [] from rfl, List.nil_append]

theorem expandBullet_newline (a b : List Char) :
    expandBullet (a ++ '\n' :: b) = expandBullet a ++ '\n' :: expandBullet b := by
  rw [expandBullet_append]
  rfl

theorem squeezeBullet_joinSep (ls : List (List Char)) :
    squeezeBullet (joinSep '\n' ls) = joinSep '\n' (ls.map squeezeBullet) := by
  induction ls with
  | nil => rfl
  | cons l ls ih =>
      cases ls with
      | nil => rfl
      | cons l2 ls2 =>
          rw [joinSep_cons_cons, squeezeBullet_newline, ih]
          simp [List.map_cons, joinSep_cons_cons]

theorem expandBullet_joinSep (ls : List (List Char)) :
    expandBullet (joinSep '\n' ls) = joinSep '\n' (ls.map expandBullet) := by
  induction ls with
  | nil => rfl
  | cons l ls ih =>
      cases ls with
      | nil => rfl
      | cons l2 ls2 =>
          rw [joinSep_cons_cons, expandBullet_newline, ih]
          simp [List.map_cons, joinSep_cons_cons]

theorem splitOnChar_squeeze (s : List Char) :
    splitOnChar '\n' (squeezeBullet s) =
      (splitOnChar '\n' s).map squeezeBullet := by
  conv_lhs => rw [show s = joinSep '\n' (splitOnChar '\n' s) from
    (joinSep_splitOnChar '\n' s).symm]
  rw [squeezeBullet_joinSep]
  refine splitOnChar_joinSep '\n' _ ?_ ?_
  · simp [splitOnChar_ne_nil '\n' s]
  · intro l hl hm
    rcases List.mem_map.mp hl with ⟨l0, hl0, rfl⟩
    exact not_mem_splitOnChar '\n' s l0 hl0 (mem_squeezeBullet l0 '\n' hm)

theorem splitOnChar_expand (s : List Char) :
    splitOnChar '\n' (expandBullet s) =
      (splitOnChar '\n' s).map expandBullet := by
  conv_lhs => rw [show s = joinSep '\n' (splitOnChar '\n' s) from
    (joinSep_splitOnChar '\n' s).symm]
  rw [expandBullet_joinSep]
  refine splitOnChar_joinSep '\n' _ ?_ ?_
  · simp [splitOnChar_ne_nil '\n' s]
  · intro l hl hm
    rcases List.mem_map.mp hl with ⟨l0, hl0, rfl⟩
    rcases mem_expandBullet l0 '\n' hm with h1 | h1 | h1
    · exact not_mem_splitOnChar '\n' s l0 hl0 h1
    · exact absurd h1 (by decide)
    · exact absurd h1 (by decide)

/-! ## Lemmas about markdown removal -/

theorem removeChar_eq_self (c : Char) (s : List Char) (h : c ∉ s) :
    removeChar c s = s := by
  induction s with
  | nil => rfl
  | cons x rest ih =>
      have hx : x ≠ c := fun hx => h (by simp [hx])
      simp [removeChar, hx, ih (fun hm => h (by simp [hm]))]

theorem not_mem_removeChar (c : Char) (s : List Char) : c ∉ removeChar c s := by
  induction s with
  | nil => simp [removeChar]
  | cons x rest ih =>
      by_cases hx : x = c
      · simpa [removeChar, hx] using ih
      · simp [removeChar, hx]
        exact ⟨fun h => hx h.symm, ih⟩

theorem mem_removeChar (c x : Char) (s : List Char) (h : x ∈ removeChar c s) :
    x ∈ s := by
  induction s with
  | nil => simp [removeChar] at h
  | cons y rest ih =>
      by_cases hy : y = c
      · rw [show removeChar c (y :: rest) = removeChar c rest by
          simp [removeChar, hy]] at h
        simp [ih h]
      · rw [show removeChar c (y :: rest) = y :: removeChar c rest by
          simp [removeChar, hy]] at h
        rcases List.mem_cons.mp h with h1 | h1
        · simp [h1]
        · simp [ih h1]

theorem removeDoubleStar_eq_self (s : List Char) (h : '*' ∉ s) :
    removeDoubleStar s = s := by
  induction s using removeDoubleStar.induct with
  | case1 rest _ => exact absurd (by simp) h
  | case2 c rest hm ih =>
      rw [removeDoubleStar.eq_2 c rest hm, ih (fun h1 => h (by simp [h1]))]
  | case3 => rfl

theorem mem_removeDoubleStar (x : Char) (s : List Char)
    (h : x ∈ removeDoubleStar s) : x ∈ s := by
  induction s using removeDoubleStar.induct with
  | case1 rest ih =>
      rw [show removeDoubleStar ('*' :: '*' :: rest) = removeDoubleStar rest
        from rfl] at h
      simp [ih h]
  | case2 c rest hm ih =>
      rw [removeDoubleStar.eq_2 c rest hm] at h
      rcases List.mem_cons.mp h with h1 | h1
      · simp [h1]
      · simp [ih h1]
  | case3 => simp [removeDoubleStar] at h

/-! ## The normal form of `clean` and idempotence -/

theorem collapse_sq_E (u : List Char) :
    collapseLines (squeezeBullet (expandBullet u)) =
      joinSep '\n' ((splitOnChar '\n' u).map
        (fun l => joinSep ' ' (pySplit (expandBullet l)))) := by
  show joinSep '\n'
      ((splitOnChar '\n' (squeezeBullet (expandBullet u))).map cleanLine) = _
  rw [splitOnChar_squeeze, splitOnChar_expand, List.map_map, List.map_map]
  refine congrArg _ (List.map_congr_left ?_)
  intro l _
  show cleanLine (squeezeBullet (expandBullet l)) = _
  show joinSep ' ' (pySplitAux (squeezeBullet (expandBullet l)) []) = _
  rw [pySplitAux_squeeze]
  rfl

theorem clean_eq (s : List Char) :
    clean s =
      joinSep '\n' ((splitOnChar '\n'
          (removeChar '*' (removeDoubleStar (removeChar (Char.ofNat 96) s)))).map
        (fun l => joinSep ' ' (pySplit (expandBullet l)))) :=
  collapse_sq_E _

theorem newline_not_mem_lineTokens (u : List Char) :
    '\n' ∉ joinSep ' ' (pySplit u) := by
  intro hm
  rcases mem_joinSep ' ' _ '\n' hm with h1 | ⟨t, ht, hx⟩
  · exact absurd h1 (by decide)
  · have := (pySplitAux_tokens_good u [] (by simp) t ht).2 '\n' hx
    exact absurd this (by decide)

theorem mem_clean (x : Char) (s : List Char) (h : x ∈ clean s) :
    x = '\n' ∨ x = ' ' ∨ x = '•' ∨
      x ∈ removeChar '*' (removeDoubleStar (removeChar (Char.ofNat 96) s)) := by
  rw [clean_eq] at h
  rcases mem_joinSep '\n' _ x h with h1 | ⟨gl, hgl, hx⟩
  · exact Or.inl h1
  · rcases List.mem_map.mp hgl with ⟨l, hl, rfl⟩
    rcases mem_joinSep ' ' _ x hx with h2 | ⟨t, ht, hx2⟩
    · exact Or.inr (Or.inl h2)
    · rcases mem_of_mem_pySplitAux _ [] t ht x hx2 with h3 | h3
      · rcases mem_expandBullet l x h3 with h4 | h4 | h4
        · exact Or.inr (Or.inr (Or.inr (mem_of_mem_splitOnChar '\n' _ l hl x h4)))
        · exact Or.inr (Or.inl h4)
        · exact Or.inr (Or.inr (Or.inl h4))
      · simp at h3

theorem backtick_not_mem_clean (s : List Char) : Char.ofNat 96 ∉ clean s := by
  intro h
  rcases mem_clean _ s h with h1 | h1 | h1 | h1
  · exact absurd h1 (by decide)
  · exact absurd h1 (by decide)
  · exact absurd h1 (by decide)
  · exact not_mem_removeChar (Char.ofNat 96) s
      (mem_removeDoubleStar _ _ (mem_removeChar '*' _ _ h1))

theorem star_not_mem_clean (s : List Char) : '*' ∉ clean s := by
  intro h
  rcases mem_clean _ s h with h1 | h1 | h1 | h1
  · exact absurd h1 (by decide)
  · exact absurd h1 (by decide)
  · exact absurd h1 (by decide)
  · exact not_mem_removeChar '*' _ h1

/-- C8, principal part: the per-tweet cleanup is idempotent. -/
theorem clean_idem (s : List Char) : clean (clean s) = clean s := by
  have h1 : removeChar (Char.ofNat 96) (clean s) = clean s :=
    removeChar_eq_self _ _ (backtick_not_mem_clean s)
  have h2 : removeDoubleStar (clean s) = clean s :=
    removeDoubleStar_eq_self _ (star_not_mem_clean s)
  have h3 : removeChar '*' (removeDoubleStar (removeChar (Char.ofNat 96)
      (clean s))) = clean s := by
    rw [h1, h2]
    exact removeChar_eq_self _ _ (star_not_mem_clean s)
  show collapseLines (squeezeBullet (expandBullet
    (removeChar '*' (removeDoubleStar (removeChar (Char.ofNat 96) (clean s)))))) =
    clean s
  rw [h3, collapse_sq_E (clean s)]
  have hsplit : splitOnChar '\n' (clean s) =
      (splitOnChar '\n'
        (removeChar '*' (removeDoubleStar (removeChar (Char.ofNat 96) s)))).map
        (fun l => joinSep ' ' (pySplit (expandBullet l))) := by
    rw [clean_eq]
    refine splitOnChar_joinSep '\n' _ ?_ ?_
    · simp [splitOnChar_ne_nil]
    · intro gl hgl hm
      rcases List.mem_map.mp hgl with ⟨l, _, rfl⟩
      exact newline_not_mem_lineTokens (expandBullet l) hm
  rw [hsplit, List.map_map]
  conv_rhs => rw [clean_eq]
  refine congrArg _ (List.map_congr_left ?_)
  intro l _
  show joinSep ' '
      (pySplit (expandBullet (joinSep ' ' (pySplit (expandBullet l))))) =
    joinSep ' ' (pySplit (expandBullet l))
  rw [pySplit_expand_joinSep (pySplit (expandBullet l)) (fun t ht =>
    ⟨pySplitAux_tokens_good _ [] (by simp) t ht,
     pySplitAux_expand_bulletTok _ [] (by simp) t ht⟩)]

/-! ## Lemmas about the segment scanner -/

theorem markerLine_nil : markerLine [] = false := by decide

theorem scanTweets_marker (rawLine : List Char)
    (h : markerLine (pyStrip rawLine) = true) (rest cur tws : List (List Char)) :
    scanTweets (rawLine :: rest) cur tws =
      scanTweets rest [pyStrip (afterFirst ':' (pyStrip rawLine))]
        (flushTweets tws cur) := by
  simp [scanTweets, h]

theorem scanTweets_append_line (rawLine : List Char)
    (h1 : markerLine (pyStrip rawLine) = false) (h2 : pyStrip rawLine ≠ [])
    (rest cur tws : List (List Char)) (h3 : cur ≠ []) :
    scanTweets (rawLine :: rest) cur tws =
      scanTweets rest (cur ++ [pyStrip rawLine]) tws := by
  simp [scanTweets, h1, h2, h3]

theorem scanTweets_blank (rawLine : List Char) (h : pyStrip rawLine = [])
    (rest cur tws : List (List Char)) :
    scanTweets (rawLine :: rest) cur tws = scanTweets rest cur tws := by
  simp [scanTweets, h, markerLine_nil]

theorem scanTweets_skip (rawLine : List Char)
    (h : markerLine (pyStrip rawLine) = false) (rest tws : List (List Char)) :
    scanTweets (rawLine :: rest) [] tws = scanTweets rest [] tws := by
  simp [scanTweets, h]

theorem scanTweets_discard_prefix (pre : List (List Char))
    (h : ∀ l ∈ pre, markerLine (pyStrip l) = false) (ls tws : List (List Char)) :
    scanTweets (pre ++ ls) [] tws = scanTweets ls [] tws := by
  induction pre with
  | nil => rfl
  | cons l pre ih =>
      rw [List.cons_append, scanTweets_skip l (h l (by simp)),
        ih (fun x hx => h x (by simp [hx]))]

theorem flushTweets_ne (tws cur : List (List Char)) (h : cur ≠ []) :
    flushTweets tws cur = tws ++ [joinSep '\n' cur] := by
  simp [flushTweets, h]

/-! ## Lemmas about the polling loop -/

theorem detectNew_cons (last : Option Nat) (m : Mention) (rest : List Mention)
    (h : last ≠ some m.id) : detectNew last (m :: rest) = some m := by
  simp [detectNew, h]

theorem detectNew_head (last : Option Nat) (ms : List Mention) (m : Mention)
    (h : detectNew last ms = some m) : ms.head? = some m := by
  cases ms with
  | nil => simp [detectNew] at h
  | cons m0 rest =>
      by_cases h0 : last ≠ some m0.id
      · simp [detectNew, h0] at h
        simp [h]
      · simp [detectNew, h0] at h

theorem loopCycle_fetch_error (env : CycleEnv) (last : Option Nat) (e : String)
    (h : env.fetch = .error e) : loopCycle env last = ⟨last, 60, none, none⟩ := by
  simp [loopCycle, h]

theorem loopCycle_dispatch (env : CycleEnv) (last : Option Nat) (m : Mention)
    (rest : List Mention) (h : env.fetch = .ok (m :: rest))
    (h2 : last ≠ some m.id) :
    loopCycle env last = ⟨some m.id, 900, some m, processMentionErr env m⟩ := by
  simp [loopCycle, h, detectNew_cons last m rest h2]

theorem loopCycle_no_new (env : CycleEnv) (last : Option Nat)
    (ms : List Mention) (h : env.fetch = .ok ms) (h2 : detectNew last ms = none) :
    loopCycle env last = ⟨last, 900, none, none⟩ := by
  simp [loopCycle, h, h2]

theorem loopCycle_dispatched_is_head (env : CycleEnv) (last : Option Nat)
    (m : Mention) (h : (loopCycle env last).dispatched = some m) :
    ∃ ms, env.fetch = .ok ms ∧ ms.head? = some m := by
  rcases hf : env.fetch with e | ms
  · rw [loopCycle_fetch_error env last e hf] at h
    simp at h
  · refine ⟨ms, rfl, ?_⟩
    rcases hd : detectNew last ms with _ | m0
    · rw [loopCycle_no_new env last ms hf hd] at h
      simp at h
    · have := detectNew_head last ms m0 hd
      simp only [loopCycle, hf, hd] at h
      simp at h
      rw [← h]
      exact this

theorem runLoop_length (envs : List CycleEnv) :
    ∀ last, (runLoop last envs).length = envs.length := by
  induction envs with
  | nil => intro last; rfl
  | cons env rest ih => intro last; simp [runLoop, ih]

theorem runLoop_not_head_not_dispatched (n : Nat) (envs : List CycleEnv)
    (h : ∀ env ∈ envs, ∀ m rest, env.fetch = .ok (m :: rest) → m.id ≠ n) :
    ∀ last, ∀ r ∈ runLoop last envs, ∀ m, r.dispatched = some m → m.id ≠ n := by
  induction envs with
  | nil => intro last r hr; simp [runLoop] at hr
  | cons env rest ih =>
      intro last r hr m hm
      rcases List.mem_cons.mp hr with h1 | h1
      · subst h1
        rcases loopCycle_dispatched_is_head env last m hm with ⟨ms, hf, hh⟩
        cases ms with
        | nil => simp at hh
        | cons m0 ms0 =>
            have : m0 = m := by simpa using hh
            subst this
            exact h env (by simp) m0 ms0 hf
      · exact ih (fun e he => h e (by simp [he])) _ r h1 m hm

/-! ## Auxiliary facts for the claims -/

theorem except_bind_ok {E A B : Type} (a : A) (f : A → Except E B) :
    (Except.ok a >>= f) = f a := rfl

theorem except_bind_error {E A B : Type} (e : E) (f : A → Except E B) :
    ((Except.error e : Except E A) >>= f) = Except.error e := rfl

theorem except_map_ok {E A B : Type} (g : A → B) (a : A) :
    (g <$> (Except.ok a : Except E A)) = Except.ok (g a) := rfl

theorem except_map_error {E A B : Type} (g : A → B) (e : E) :
    (g <$> (Except.error e : Except E A)) = Except.error e := rfl

theorem getD_replicate_nil (k j : Nat) :
    (List.replicate k ([] : List Char)).getD j [] = [] := by
  induction k generalizing j with
  | zero => simp [List.getD]
  | succ k ih =>
      cases j with
      | zero => rfl
      | succ j => exact ih j

theorem padTweets_getD (l : List (List Char)) (i : Nat) :
    (padTweets l).getD i [] = l.getD i [] := by
  unfold padTweets
  rcases Nat.lt_or_ge i l.length with h | h
  · exact List.getD_append _ _ _ _ h
  · rw [List.getD_append_right _ _ _ _ h, getD_replicate_nil,
      List.getD_eq_default _ _ h]

/-! ## The claims -/

/-- C1, corrected. Exceptions raised by the fetch step are caught at the cycle
boundary: the watermark is unchanged, nothing is dispatched, the loop
continues (every remaining cycle still runs), and the 60-second recovery sleep
replaces the 15-minute interval. But exceptions raised while running the
agent, generating the thread, or publishing the replies are caught inside
`process_mention`, not at the cycle boundary: the loop continues, yet the
watermark IS advanced to the mention's id and the full 15-minute sleep
follows. -/
theorem claim_C1_amended :
    (∀ env last e, env.fetch = .error e →
      (loopCycle env last).lastAfter = last ∧
      (loopCycle env last).sleepSecs = 60 ∧
      (loopCycle env last).dispatched = none) ∧
    (∀ last envs, (runLoop last envs).length = envs.length) ∧
    (∀ env last (m : Mention) rest,
      env.fetch = .ok (m :: rest) → last ≠ some m.id →
      (loopCycle env last).lastAfter = some m.id ∧
      (loopCycle env last).sleepSecs = 900 ∧
      (loopCycle env last).procErr = processMentionErr env m) := by
  refine ⟨?_, ?_, ?_⟩
  · intro env last e h
    rw [loopCycle_fetch_error env last e h]
    exact ⟨rfl, rfl, rfl⟩
  · intro last envs
    exact runLoop_length envs last
  · intro env last m rest h h2
    rw [loopCycle_dispatch env last m rest h h2]
    exact ⟨rfl, rfl, rfl⟩

/-- C1, witness for the amended claim at concrete cycles: a failing fetch and a
cycle with a failing agent call. -/
theorem claim_C1_witness :
    ((loopCycle envFetchDown (some 3)).lastAfter = some 3 ∧
      (loopCycle envFetchDown (some 3)).sleepSecs = 60 ∧
      (loopCycle envFetchDown (some 3)).dispatched = none) ∧
    ((loopCycle envAgentDown (some 3)).lastAfter = some m0.id ∧
      (loopCycle envAgentDown (some 3)).sleepSecs = 900) := by
  have h1 := claim_C1_amended.1 envFetchDown (some 3) "net down" rfl
  have h2 := claim_C1_amended.2.2 envAgentDown (some 3) m0 [] rfl (by decide)
  exact ⟨h1, h2.1, h2.2.1⟩

/-- C1, counterexample to the claim as stated: in a cycle whose fetch succeeds
with one new mention but whose agent call raises, the error is swallowed
inside `process_mention`; the watermark advances to the mention's id and the
full 15-minute sleep follows — not the claimed unchanged watermark and
60-second recovery sleep. -/
theorem claim_C1_counterexample :
    processMentionErr envAgentDown m0 = some "agent down" ∧
    (loopCycle envAgentDown none).lastAfter = some 5 ∧
    (loopCycle envAgentDown none).sleepSecs = 900 ∧
    ¬((loopCycle envAgentDown none).lastAfter = none ∧
      (loopCycle envAgentDown none).sleepSecs = 60) := by
  refine ⟨?_, ?_, ?_, ?_⟩ <;> decide

/-- C2: the parse step always returns exactly three segments without failing:
each field of the thread is the corresponding cleaned segment, an empty string
standing in when fewer than three were scanned, and segments past the third
are dropped; in particular the empty input and an input with no marker lines
give three empty segments, and an input with ten marker lines keeps exactly
the first three. -/
theorem claim_C2 :
    (∀ rawText, generate_twitter_thread rawText =
      ⟨(cleanedTweets rawText).getD 0 [], (cleanedTweets rawText).getD 1 [],
        (cleanedTweets rawText).getD 2 []⟩) ∧
    generate_twitter_thread [] = ⟨[], [], []⟩ ∧
    generate_twitter_thread "no marker lines here".toList = ⟨[], [], []⟩ ∧
    generate_twitter_thread tenMarkers =
      ⟨"a".toList, "b".toList, "c".toList⟩ := by
  refine ⟨?_, by decide, by decide, by decide⟩
  intro raw
  show (⟨(padTweets (cleanedTweets raw)).getD 0 [],
        (padTweets (cleanedTweets raw)).getD 1 [],
        (padTweets (cleanedTweets raw)).getD 2 []⟩ : TwitterThread) = _
  rw [padTweets_getD, padTweets_getD, padTweets_getD]

/-- C3, corrected. `post_thread` posts the three segments as a chained reply
sequence (segment two replying to segment one's returned id, segment three to
segment two's) and returns segment one's id on success; whenever any of the
three post calls fails, `post_thread` fails by propagating the underlying
posting error unchanged — a partial post is never reported as success, but the
propagated error is the posting primitive's own error and carries no count of
segments already posted. -/
theorem claim_C3_amended : ∀ {E : Type}
    (ct : List Char → Option Nat → Except E Nat) (th : TwitterThread)
    (target i1 i2 i3 : Nat),
    (ct th.tweet1 (some target) = .ok i1 → ct th.tweet2 (some i1) = .ok i2 →
      ct th.tweet3 (some i2) = .ok i3 →
      post_thread ct th (some target) = .ok i1) ∧
    (∀ e, ct th.tweet1 (some target) = .error e →
      post_thread ct th (some target) = .error e) ∧
    (∀ e, ct th.tweet1 (some target) = .ok i1 →
      ct th.tweet2 (some i1) = .error e →
      post_thread ct th (some target) = .error e) ∧
    (∀ e, ct th.tweet1 (some target) = .ok i1 → ct th.tweet2 (some i1) = .ok i2 →
      ct th.tweet3 (some i2) = .error e →
      post_thread ct th (some target) = .error e) := by
  intro E ct th target i1 i2 i3
  refine ⟨?_, ?_, ?_, ?_⟩
  · intro h1 h2 h3
    simp only [post_thread, h1, h2, h3, except_bind_ok, except_map_ok]
    rfl
  · intro e h1
    simp only [post_thread, h1, except_bind_error]
  · intro e h1 h2
    simp only [post_thread, h1, h2, except_bind_ok, except_bind_error]
  · intro e h1 h2 h3
    simp only [post_thread, h1, h2, h3, except_bind_ok, except_map_error]
    rfl

/-- C3, witness for the amended claim: a fully successful chain returns the
first post's id, and a failure on the second call propagates the error. -/
theorem claim_C3_witness :
    post_thread postOk th0 (some 7) = .ok 8 ∧
    post_thread postFailSecond th0 (some 7) = .error "boom" := by
  exact ⟨(claim_C3_amended postOk th0 7 8 9 10).1 rfl rfl rfl,
    (claim_C3_amended postFailSecond th0 7 10 0 0).2.2.1 "boom" rfl rfl⟩

/-- C3, counterexample to the claim as stated: a failure before any segment is
posted and a failure after one segment was posted produce the very same error
value, so the error reported by `post_thread` cannot carry the number of
segments successfully posted (there is no PublishError wrapper in the code). -/
theorem claim_C3_counterexample :
    post_thread postAlwaysFail th0 (some 7) = .error "boom" ∧
    post_thread postFailSecond th0 (some 7) = .error "boom" ∧
    post_thread postFailSecond th0 (some 7) =
      post_thread postAlwaysFail th0 (some 7) := by
  refine ⟨rfl, rfl, rfl⟩

/-- C4: when the startup fetch returns a non-empty list, the daemon records
the newest mention's id as the watermark without dispatching anything, and a
poll cycle that then fetches the same list dispatches nothing (the head's id
equals the watermark) and leaves the watermark unchanged, so pre-existing
mentions are not processed. -/
theorem claim_C4 : ∀ (m : Mention) (rest : List Mention)
    (cycles : List CycleEnv),
    runBot (.ok (m :: rest)) cycles = .ok (runLoop (some m.id) cycles) ∧
    initialWatermark (m :: rest) = some m.id ∧
    detectNew (some m.id) (m :: rest) = none ∧
    (∀ env : CycleEnv, env.fetch = .ok (m :: rest) →
      (loopCycle env (some m.id)).dispatched = none ∧
      (loopCycle env (some m.id)).lastAfter = some m.id) := by
  intro m rest cycles
  have hdn : detectNew (some m.id) (m :: rest) = none := by simp [detectNew]
  refine ⟨rfl, rfl, hdn, ?_⟩
  intro env h
  rw [loopCycle_no_new env (some m.id) (m :: rest) h hdn]
  exact ⟨rfl, rfl⟩

/-- C4, witness at a concrete startup fetch. -/
theorem claim_C4_witness :
    runBot (.ok [mA]) [mkOkEnv (.ok [mA])] =
      .ok (runLoop (some mA.id) [mkOkEnv (.ok [mA])]) ∧
    detectNew (some mA.id) [mA] = none ∧
    (loopCycle (mkOkEnv (.ok [mA])) (some mA.id)).dispatched = none := by
  have h := claim_C4 mA [] [mkOkEnv (.ok [mA])]
  exact ⟨h.1, h.2.2.1, (h.2.2.2 (mkOkEnv (.ok [mA])) rfl).1⟩

/-- C5: in a cycle whose fetched list is non-empty with a head id different
from the watermark, exactly the head mention is dispatched and the watermark
then becomes its id; a dispatched mention is always the head of its cycle's
fetched list, so an older mention sitting behind a newer one in every
newest-first fetch is never dispatched in any cycle. -/
theorem claim_C5 :
    (∀ last (Y : Mention) rest, last ≠ some Y.id →
      detectNew last (Y :: rest) = some Y) ∧
    (∀ last ms (m : Mention), detectNew last ms = some m →
      ms.head? = some m) ∧
    (∀ env last (Y : Mention) rest, env.fetch = .ok (Y :: rest) →
      last ≠ some Y.id →
      (loopCycle env last).dispatched = some Y ∧
      (loopCycle env last).lastAfter = some Y.id) ∧
    (∀ (X : Mention) envs last,
      (∀ env ∈ envs, ∀ (m : Mention) rest,
        env.fetch = .ok (m :: rest) → m.id ≠ X.id) →
      ∀ r ∈ runLoop last envs, ∀ m, r.dispatched = some m → m.id ≠ X.id) := by
  refine ⟨?_, ?_, ?_, ?_⟩
  · intro last Y rest h
    exact detectNew_cons last Y rest h
  · intro last ms m h
    exact detectNew_head last ms m h
  · intro env last Y rest h h2
    rw [loopCycle_dispatch env last Y rest h h2]
    exact ⟨rfl, rfl⟩
  · intro X envs last h
    exact runLoop_not_head_not_dispatched X.id envs h last

/-- C5, witness: with watermark 1 and a fetch `[mB, mA]` (newest first),
exactly `mB` is dispatched and the watermark becomes 2. -/
theorem claim_C5_witness :
    detectNew (some 1) [mB, mA] = some mB ∧
    (loopCycle (mkOkEnv (.ok [mB, mA])) (some 1)).dispatched = some mB ∧
    (loopCycle (mkOkEnv (.ok [mB, mA])) (some 1)).lastAfter = some mB.id := by
  have h := claim_C5.2.2.1 (mkOkEnv (.ok [mB, mA])) (some 1) mB [mA] rfl
    (by decide)
  exact ⟨claim_C5.1 (some 1) mB [mA] (by decide), h.1, h.2⟩

/-- C6, corrected. A (stripped) line starts a new segment exactly when it
begins with the marker word `Tweet` plus a space and contains a colon
anywhere — no ordinal is required after the marker word. When it does, a
non-empty open accumulator is flushed (lines joined with newline) before the
new segment starts, the new accumulator's sole line is the text after the
first colon, trimmed (empty when the colon ends the line), and all lines
before the first marker line are discarded. -/
theorem claim_C6_amended :
    (∀ line, markerLine line = true ↔
      ("Tweet ".toList <+: line ∧ ':' ∈ line)) ∧
    (∀ pre ls tws, (∀ l ∈ pre, markerLine (pyStrip l) = false) →
      scanTweets (pre ++ ls) [] tws = scanTweets ls [] tws) ∧
    (∀ rawLine rest cur tws, markerLine (pyStrip rawLine) = true →
      scanTweets (rawLine :: rest) cur tws =
        scanTweets rest [pyStrip (afterFirst ':' (pyStrip rawLine))]
          (flushTweets tws cur)) ∧
    (∀ tws cur, cur ≠ [] → flushTweets tws cur = tws ++ [joinSep '\n' cur]) ∧
    generate_twitter_thread "Tweet 1:".toList = ⟨[], [], []⟩ ∧
    generate_twitter_thread "Tweet 1:\nB".toList = ⟨"\nB".toList, [], []⟩ ∧
    generate_twitter_thread "Tweet 1: A\nTweet 2: B\nTweet 3: C".toList =
      ⟨"A".toList, "B".toList, "C".toList⟩ := by
  refine ⟨?_, ?_, ?_, ?_, by decide, by decide, by decide⟩
  · intro line
    simp only [markerLine, Bool.and_eq_true, List.isPrefixOf_iff_prefix]
    exact and_congr Iff.rfl List.elem_iff
  · intro pre ls tws h
    exact scanTweets_discard_prefix pre h ls tws
  · intro rawLine rest cur tws h
    exact scanTweets_marker rawLine h rest cur tws
  · intro tws cur h
    exact flushTweets_ne tws cur h

/-- C6, witness for the amended claim at concrete lines. -/
theorem claim_C6_witness :
    markerLine "Tweet 1: A".toList = true ∧
    scanTweets (["preamble text".toList] ++ ["Tweet 1: A".toList]) [] [] =
      scanTweets ["Tweet 1: A".toList] [] [] ∧
    scanTweets ["Tweet 2: B".toList] ["A".toList] [] =
      scanTweets [] [pyStrip (afterFirst ':' (pyStrip "Tweet 2: B".toList))]
        (flushTweets [] ["A".toList]) ∧
    flushTweets [] ["A".toList] = [] ++ [joinSep '\n' ["A".toList]] := by
  refine ⟨(claim_C6_amended.1 _).mpr (by decide),
    claim_C6_amended.2.1 ["preamble text".toList] ["Tweet 1: A".toList] []
      (by decide),
    claim_C6_amended.2.2.1 "Tweet 2: B".toList [] ["A".toList] [] (by decide),
    claim_C6_amended.2.2.2.1 [] ["A".toList] (by decide)⟩

/-- C6, counterexample to the claim as stated: the line `Tweet one: A` has no
ordinal after the marker word, so under the claimed "exactly when" pattern it
would not start a segment and this one-line input would parse to three empty
segments; in the code it does start a segment and the first segment is `A`. -/
theorem claim_C6_counterexample :
    specMarkerLine "Tweet one: A".toList = false ∧
    markerLine "Tweet one: A".toList = true ∧
    generate_twitter_thread "Tweet one: A".toList =
      ⟨"A".toList, [], []⟩ := by
  refine ⟨by decide, by decide, by decide⟩

/-- C7: a line that strips to nothing is dropped by the scanner whatever the
accumulator state (never appended, never a separator), and the input
`"Tweet 1: A\n\nB\n"` parses with first segment `"A\nB"`, the blank line
leaving no trace. -/
theorem claim_C7 :
    (∀ rawLine, pyStrip rawLine = [] →
      ∀ rest cur tws,
        scanTweets (rawLine :: rest) cur tws = scanTweets rest cur tws) ∧
    generate_twitter_thread "Tweet 1: A\n\nB\n".toList =
      ⟨"A\nB".toList, [], []⟩ := by
  exact ⟨fun l h rest cur tws => scanTweets_blank l h rest cur tws, by decide⟩

/-- C7, witness: a whitespace-only line between two content lines is dropped
with a non-empty accumulator open. -/
theorem claim_C7_witness :
    pyStrip "  ".toList = [] ∧
    scanTweets ["  ".toList, "B".toList] ["A".toList] [] =
      scanTweets ["B".toList] ["A".toList] [] := by
  exact ⟨by decide, claim_C7.1 "  ".toList (by decide) _ _ _⟩

/-- C8: the normalization `clean` is an idempotent (deterministic, pure)
function: cleaning an already cleaned segment changes nothing. -/
theorem claim_C8 : ∀ x, clean (clean x) = clean x := clean_idem

/-- C9: the startup fetch runs before and outside the per-cycle error
boundary — if it fails, the daemon fails with that very error and no poll
cycle ever runs; by contrast, the same fetch error inside the loop is caught:
the cycle leaves the watermark unchanged and sleeps 60 seconds, and the loop
goes on. -/
theorem claim_C9 :
    (∀ e cycles, runBot (.error e) cycles = .error e) ∧
    (∀ m rest cycles, runBot (.ok (m :: rest)) cycles =
      .ok (runLoop (some m.id) cycles)) ∧
    (∀ env last e, env.fetch = .error e →
      (loopCycle env last).lastAfter = last ∧
      (loopCycle env last).sleepSecs = 60) := by
  refine ⟨fun e cycles => rfl, fun m rest cycles => rfl, ?_⟩
  intro env last e h
  rw [loopCycle_fetch_error env last e h]
  exact ⟨rfl, rfl⟩

/-- C9, witness: a failing startup fetch aborts the daemon before any cycle,
while a failing in-loop fetch is absorbed by one cycle. -/
theorem claim_C9_witness :
    runBot (.error "auth failed") reprocessCycles = .error "auth failed" ∧
    (loopCycle envFetchDown (some 9)).lastAfter = some 9 ∧
    (loopCycle envFetchDown (some 9)).sleepSecs = 60 := by
  have h := claim_C9.2.2 envFetchDown (some 9) "net down" rfl
  exact ⟨claim_C9.1 "auth failed" reprocessCycles, h.1, h.2⟩

/-- C10: the dispatch condition is exactly "fetched list non-empty and head id
different from the watermark" — no recency comparison; consequently the same
mention can be dispatched twice: after `mA` then `mB` are processed, a later
fetch with the older `mA` back at the head dispatches `mA` again. -/
theorem claim_C10 :
    (∀ last ms, (detectNew last ms).isSome = true ↔
      ∃ (m : Mention) (rest : List Mention),
        ms = m :: rest ∧ last ≠ some m.id) ∧
    (runLoop (some 0) reprocessCycles).map (fun r => r.dispatched) =
      [some mA, some mB, some mA] := by
  constructor
  · intro last ms
    cases ms with
    | nil => simp [detectNew]
    | cons m rest =>
        by_cases h : last = some m.id
        · simp [detectNew, h]
        · simp [detectNew, h]
  · decide

end AskPayxn
